import Mathlib

/-!
Verification of the richtext core of `bsky-richtext-react`:
the UTF-8 byte-offset codec (`src/utils/utf8.ts`), the facet segmenter
(`parseRichText` in `src/utils/parser.ts`), and the class-name deep-merge
(`generateClassNames` in `src/utils/classNames.ts`).

JavaScript strings are sequences of UTF-16 code units; we model them as
`List (Fin 65536)`.  `TextEncoder`/`TextDecoder` are modelled by the WHATWG
algorithms: encoding converts the code-unit sequence to Unicode scalar
values (pairing surrogates, replacing lone surrogates by U+FFFD) and
serialises each scalar to UTF-8 bytes; decoding runs the WHATWG UTF-8
state machine with U+FFFD replacement on malformed/truncated input.
-/

namespace BskyRichText

/-- A UTF-16 code unit: JavaScript strings are sequences of these. -/
abbrev CodeUnit := Fin 65536

/-- A JavaScript string, as its sequence of UTF-16 code units. -/
abbrev JSStr := List CodeUnit

/-- Number of UTF-16 code units a Unicode scalar value occupies. -/
def u16W (c : Nat) : Nat := if c < 65536 then 1 else 2

/-- UTF-16 length of a sequence of scalar values. -/
def u16Len (cs : List Nat) : Nat := (cs.map u16W).sum

/-- WHATWG "convert a code unit sequence to a scalar value sequence":
high+low surrogate pairs combine into a supplementary scalar; lone
surrogates become U+FFFD. -/
def toScalars : JSStr → List Nat
  | [] => []
  | [u] =>
    if (0xD800 ≤ (u : Nat) ∧ (u : Nat) ≤ 0xDBFF) ∨ (0xDC00 ≤ (u : Nat) ∧ (u : Nat) ≤ 0xDFFF) then
      [0xFFFD]
    else
      [(u : Nat)]
  | u :: v :: rest2 =>
    if 0xD800 ≤ (u : Nat) ∧ (u : Nat) ≤ 0xDBFF then
      if 0xDC00 ≤ (v : Nat) ∧ (v : Nat) ≤ 0xDFFF then
        (0x10000 + ((u : Nat) - 0xD800) * 0x400 + ((v : Nat) - 0xDC00)) :: toScalars rest2
      else
        0xFFFD :: toScalars (v :: rest2)
    else if 0xDC00 ≤ (u : Nat) ∧ (u : Nat) ≤ 0xDFFF then
      0xFFFD :: toScalars (v :: rest2)
    else
      (u : Nat) :: toScalars (v :: rest2)

/-- UTF-8 serialisation of one Unicode scalar value. -/
def encodeScalar (c : Nat) : List Nat :=
  if c < 0x80 then [c]
  else if c < 0x800 then [0xC0 + c / 64, 0x80 + c % 64]
  else if c < 0x10000 then [0xE0 + c / 4096, 0x80 + (c / 64) % 64, 0x80 + c % 64]
  else [0xF0 + c / 262144, 0x80 + (c / 4096) % 64, 0x80 + (c / 64) % 64, 0x80 + c % 64]

/-- `TextEncoder.encode`: UTF-8 bytes of a JavaScript string. -/
def utf8Encode (s : JSStr) : List Nat := ((toScalars s).map encodeScalar).flatten

/-- `utf8ByteLength(text)` from `src/utils/utf8.ts`: `encoder.encode(text).length`. -/
def utf8ByteLength (s : JSStr) : Nat := (utf8Encode s).length

/-- One step of the WHATWG UTF-8 decoder in the clean state: returns the
emitted scalars and the continuation state `(bytes needed, partial code
point, lower boundary, upper boundary)` (if any). -/
def stepClean (b : Nat) : List Nat × Option (Nat × Nat × Nat × Nat) :=
  if b ≤ 0x7F then ([b], none)
  else if 0xC2 ≤ b ∧ b ≤ 0xDF then ([], some (1, b - 0xC0, 0x80, 0xBF))
  else if 0xE0 ≤ b ∧ b ≤ 0xEF then
    ([], some (2, b - 0xE0, if b = 0xE0 then 0xA0 else 0x80, if b = 0xED then 0x9F else 0xBF))
  else if 0xF0 ≤ b ∧ b ≤ 0xF4 then
    ([], some (3, b - 0xF0, if b = 0xF0 then 0x90 else 0x80, if b = 0xF4 then 0x8F else 0xBF))
  else ([0xFFFD], none)

/-- The WHATWG UTF-8 decoder: scalar values of a byte sequence, replacing
malformed sequences by U+FFFD; a truncated final sequence yields one
U+FFFD (end-of-stream rule). -/
def decodeRun : List Nat → Option (Nat × Nat × Nat × Nat) → List Nat
  | [], none => []
  | [], some _ => [0xFFFD]
  | b :: rest, none =>
    (stepClean b).1 ++ decodeRun rest (stepClean b).2
  | b :: rest, some (needed, cp, lo, hi) =>
    if lo ≤ b ∧ b ≤ hi then
      if needed ≤ 1 then (cp * 64 + (b - 0x80)) :: decodeRun rest none
      else decodeRun rest (some (needed - 1, cp * 64 + (b - 0x80), 0x80, 0xBF))
    else
      0xFFFD :: ((stepClean b).1 ++ decodeRun rest (stepClean b).2)

/-- `TextDecoder.decode` as a scalar-value sequence. -/
def utf8Decode (bytes : List Nat) : List Nat := decodeRun bytes none

/-- UTF-16 code units of one scalar value (surrogate pair when ≥ U+10000). -/
def scalarToUnits (c : Nat) : List Nat :=
  if c < 0x10000 then [c]
  else [0xD800 + (c - 0x10000) / 0x400, 0xDC00 + (c - 0x10000) % 0x400]

/-- `TextDecoder.decode` as a JavaScript string (UTF-16 code-unit sequence). -/
def utf8DecodeStr (bytes : List Nat) : List Nat := ((utf8Decode bytes).map scalarToUnits).flatten

/-- `utf8ByteOffsetToCharIndex(text, byteOffset)` from `src/utils/utf8.ts`:
decode the first `byteOffset` UTF-8 bytes of `text` and measure the
resulting string's length. -/
def utf8ByteOffsetToCharIndex (s : JSStr) (byteOffset : Nat) : Nat :=
  (utf8DecodeStr ((utf8Encode s).take byteOffset)).length

/-- `String.prototype.slice` restricted to nonnegative indices: code units
in `[start, end)`, both ends clamped to the string length. -/
def jsSlice (s : JSStr) (a b : Nat) : JSStr := (s.take b).drop a

/-- `sliceByByteOffset(text, byteStart, byteEnd)` from `src/utils/utf8.ts`. -/
def sliceByByteOffset (s : JSStr) (byteStart byteEnd : Nat) : JSStr :=
  jsSlice s (utf8ByteOffsetToCharIndex s byteStart) (utf8ByteOffsetToCharIndex s byteEnd)

/-- `ByteSlice` from `src/types/facets.ts`: a half-open UTF-8 byte range. -/
structure ByteSlice where
  byteStart : Nat
  byteEnd : Nat
deriving DecidableEq, Repr

/-- `FacetFeature` from `src/types/facets.ts`: mention, link or tag. -/
inductive FacetFeature where
  | mention (did : String)
  | link (uri : String)
  | tag (t : String)
deriving DecidableEq, Repr

/-- `Facet` from `src/types/facets.ts`. -/
structure Facet where
  index : ByteSlice
  features : List FacetFeature
deriving DecidableEq, Repr

/-- `RichTextRecord` from `src/types/facets.ts`: `facets` is optional. -/
structure RichTextRecord where
  text : JSStr
  facets : Option (List Facet)
deriving DecidableEq, Repr

/-- `RichTextSegment` from `src/types/facets.ts`: `feature` is optional. -/
structure RichTextSegment where
  text : JSStr
  feature : Option FacetFeature
deriving DecidableEq, Repr

/-- Stable insertion of a facet into a list already sorted by `byteStart`:
the facet is placed before every existing facet with an equal or larger
`byteStart`. -/
def insertFacet (f : Facet) : List Facet → List Facet
  | [] => [f]
  | g :: rest =>
    if g.index.byteStart < f.index.byteStart then g :: insertFacet f rest
    else f :: g :: rest

/-- `sortFacets` from `src/utils/parser.ts`:
`[...facets].sort((a, b) => a.index.byteStart - b.index.byteStart)` —
`Array.prototype.sort` is a stable sort, modelled here by stable
insertion sort (same output function on every input). -/
def sortFacets : List Facet → List Facet
  | [] => []
  | f :: rest => insertFacet f (sortFacets rest)

/-- `pickFeature` from `src/utils/parser.ts`: `features[0]`, which is
`undefined` on an empty array. -/
def pickFeature (features : List FacetFeature) : Option FacetFeature :=
  features.head?

/-- The cursor loop of `parseRichText` (`src/utils/parser.ts`):
for each facet, skip it when malformed or out of bounds, otherwise emit
the plain gap segment (if any) and the annotated segment, advancing the
cursor to `byteEnd`; at the end emit the trailing plain segment. -/
def parseLoop (text : JSStr) (textByteLength : Nat) :
    List Facet → Nat → List RichTextSegment
  | [], cursor =>
    if cursor < textByteLength then
      [{ text := sliceByByteOffset text cursor textByteLength, feature := none }]
    else []
  | facet :: rest, cursor =>
    if facet.index.byteStart < cursor ∨ textByteLength < facet.index.byteEnd ∨
        facet.index.byteEnd ≤ facet.index.byteStart then
      parseLoop text textByteLength rest cursor
    else
      (if cursor < facet.index.byteStart then
        [{ text := sliceByByteOffset text cursor facet.index.byteStart, feature := none }]
      else []) ++
      { text := sliceByByteOffset text facet.index.byteStart facet.index.byteEnd,
        feature := pickFeature facet.features }
        :: parseLoop text textByteLength rest facet.index.byteEnd

/-- `parseRichText` from `src/utils/parser.ts`. -/
def parseRichText (record : RichTextRecord) : List RichTextSegment :=
  match record.facets with
  | none => [{ text := record.text, feature := none }]
  | some facets =>
    if facets.length = 0 then [{ text := record.text, feature := none }]
    else
      parseLoop record.text (utf8ByteLength record.text) (sortFacets facets) 0

/-- Concatenation of the `text` fields of a segment sequence. -/
def concatSegs (segs : List RichTextSegment) : JSStr :=
  (segs.map RichTextSegment.text).flatten

/-!
Class-name composer (`generateClassNames` in `src/utils/classNames.ts`).

The function is generic over JavaScript values: layers are objects (or
falsy absent-markers), values are class-name strings or nested objects.
`JsVal` models the JavaScript values that can occur; field payload
strings stay Lean `String`s since they are treated opaquely except for
truthiness and joining.
-/

/-- A JavaScript value as handled by `generateClassNames`. -/
inductive JsVal where
  | jsUndefined : JsVal
  | jsNull : JsVal
  | jsBool : Bool → JsVal
  | jsStr : String → JsVal
  | jsObj : List (String × JsVal) → JsVal

/-- JavaScript truthiness (`Boolean(v)`) for the values in play. -/
def truthy : JsVal → Bool
  | .jsUndefined => false
  | .jsNull => false
  | .jsBool b => b
  | .jsStr s => !s.isEmpty
  | .jsObj _ => true

/-- `v !== undefined`. -/
def isUndefined : JsVal → Bool
  | .jsUndefined => true
  | _ => false

/-- `typeof v === 'string'`. -/
def isStr : JsVal → Bool
  | .jsStr _ => true
  | _ => false

/-- Payload of a string value (only used on values known to be strings). -/
def strOf : JsVal → String
  | .jsStr s => s
  | _ => ""

/-- First-occurrence deduplication with an accumulator of already-seen
keys; models iterating keys into a JavaScript `Set`. -/
def dedupAux : List String → List String → List String
  | [], _ => []
  | k :: rest, seen =>
    if k ∈ seen then dedupAux rest seen else k :: dedupAux rest (k :: seen)

/-- First-occurrence deduplication of a key list. -/
def dedupKeys (ks : List String) : List String := dedupAux ks []

/-- `Object.keys(v)`: field names of an object, character indices of a
string, empty for primitives. -/
def keysOf : JsVal → List String
  | .jsObj fields => dedupKeys (fields.map Prod.fst)
  | .jsStr s => (List.range s.length).map (fun i => toString i)
  | _ => []

/-- JavaScript property access `v[key]` for the values in play: field
lookup on objects, character access on strings, `undefined` otherwise. -/
def getProp : JsVal → String → JsVal
  | .jsObj fields, key =>
    match fields.find? (fun p => p.1 == key) with
    | some p => p.2
    | none => .jsUndefined
  | .jsStr s, key =>
    match (List.range s.length).find? (fun i => toString i == key) with
    | some i => .jsStr (String.mk [s.data.getD i ' '])
    | none => .jsUndefined
  | _, _ => .jsUndefined

/-- `validObjects.map((obj) => obj[key]).filter((v) => v !== undefined)`:
all defined values for a key, in layer order. -/
def collectValues (validObjects : List JsVal) (key : String) : List JsVal :=
  (validObjects.map (fun o => getProp o key)).filter (fun v => !isUndefined v)

/-- The combiner: the supplied `cn`, or the default
`(...args) => args.filter(Boolean).join(' ')`. -/
def mergeStrings (cn : Option (List String → String)) (args : List String) : String :=
  match cn with
  | some f => f args
  | none => String.intercalate " " (args.filter (fun s => !s.isEmpty))

mutual
/-- Size measure on `JsVal` used for the termination of the merge. -/
def jsSize : JsVal → Nat
  | .jsObj fields => 1 + fieldsSize fields
  | .jsStr s => 1 + s.length
  | _ => 1
/-- Size of an object's field list. -/
def fieldsSize : List (String × JsVal) → Nat
  | [] => 0
  | (_, v) :: rest => jsSize v + fieldsSize rest
end

/-- Sum of sizes of a list of values. -/
def sumJsList : List JsVal → Nat
  | [] => 0
  | v :: rest => jsSize v + sumJsList rest

theorem jsSize_pos (v : JsVal) : 1 ≤ jsSize v := by
  cases v <;> simp [jsSize]

theorem fieldsSize_of_mem {p : String × JsVal} {fields : List (String × JsVal)}
    (h : p ∈ fields) : jsSize p.2 ≤ fieldsSize fields := by
  induction fields with
  | nil => cases h
  | cons q rest ih =>
    obtain ⟨a, b⟩ := q
    rcases List.mem_cons.mp h with hq | h2
    · subst hq; simp [fieldsSize]
    · have := ih h2
      simp [fieldsSize]
      omega

theorem getProp_size_le (v : JsVal) (key : String) : jsSize (getProp v key) ≤ jsSize v := by
  cases v with
  | jsObj fields =>
    simp only [getProp]
    cases hf : fields.find? (fun p => p.1 == key) with
    | none => simpa [jsSize] using jsSize_pos (.jsObj fields)
    | some p =>
      have hm : p ∈ fields := List.mem_of_find?_eq_some hf
      have := fieldsSize_of_mem hm
      simp [jsSize]
      omega
  | jsStr s =>
    simp only [getProp]
    cases hf : (List.range s.length).find? (fun i => toString i == key) with
    | none => simp [jsSize]
    | some i =>
      have hm : i ∈ List.range s.length := List.mem_of_find?_eq_some hf
      have : i < s.length := List.mem_range.mp hm
      simp [jsSize]
      omega
  | jsUndefined => simp [getProp, jsSize]
  | jsNull => simp [getProp, jsSize]
  | jsBool b => simp [getProp, jsSize]

theorem getProp_obj_lt {v : JsVal} {key : String} {o : List (String × JsVal)}
    (h : getProp v key = .jsObj o) : jsSize (.jsObj o) < jsSize v := by
  cases v with
  | jsObj fields =>
    cases hf : fields.find? (fun p => p.1 == key) with
    | none => simp only [getProp, hf] at h; exact absurd h (by simp)
    | some p =>
      simp only [getProp, hf] at h
      have hm : p ∈ fields := List.mem_of_find?_eq_some hf
      have := fieldsSize_of_mem hm
      rw [h] at this
      simp only [jsSize] at this ⊢
      omega
  | jsStr s =>
    cases hf : (List.range s.length).find? (fun i => toString i == key) with
    | none => simp only [getProp, hf] at h; exact absurd h (by simp)
    | some i => simp only [getProp, hf] at h; exact absurd h (by simp)
  | jsUndefined => cases h
  | jsNull => cases h
  | jsBool b => cases h

theorem collectValues_cons (o : JsVal) (rest : List JsVal) (key : String) :
    collectValues (o :: rest) key =
      if isUndefined (getProp o key) then collectValues rest key
      else getProp o key :: collectValues rest key := by
  simp only [collectValues, List.map_cons, List.filter_cons]
  by_cases h : isUndefined (getProp o key) <;> simp [h]

theorem sumJs_collect_le (vo : List JsVal) (key : String) :
    sumJsList (collectValues vo key) ≤ sumJsList vo := by
  induction vo with
  | nil => simp [collectValues, sumJsList]
  | cons o rest ih =>
    rw [collectValues_cons]
    have hle := getProp_size_le o key
    by_cases h : isUndefined (getProp o key) <;> simp [h, sumJsList] <;> omega

theorem sumJs_collect_lt {vo : List JsVal} {key : String} {o : List (String × JsVal)}
    {vs : List JsVal} (h : collectValues vo key = .jsObj o :: vs) :
    sumJsList (collectValues vo key) < sumJsList vo := by
  induction vo with
  | nil => simp [collectValues] at h
  | cons x rest ih =>
    rw [collectValues_cons] at h ⊢
    by_cases hx : isUndefined (getProp x key)
    · rw [if_pos hx] at h ⊢
      have := ih h
      have := jsSize_pos x
      simp [sumJsList]
      omega
    · rw [if_neg hx] at h ⊢
      have hobj : getProp x key = .jsObj o := (List.cons_eq_cons.mp h).1
      have hlt := getProp_obj_lt hobj
      have hrest := sumJs_collect_le rest key
      simp only [sumJsList]
      rw [hobj]
      omega

theorem sumJs_filter_le (p : JsVal → Bool) (l : List JsVal) :
    sumJsList (l.filter p) ≤ sumJsList l := by
  induction l with
  | nil => simp [sumJsList]
  | cons x rest ih =>
    rw [List.filter_cons]
    have := jsSize_pos x
    by_cases h : p x <;> simp [h, sumJsList] <;> omega

/-- Lexicographic helper: first component can stay equal when the second
strictly drops. -/
theorem lexNat3_le_mid {a b n : Nat} (hab : a ≤ b) :
    Prod.Lex (fun x y : Nat => x < y)
      (Prod.Lex (fun x y : Nat => x < y) fun x y : Nat => x < y)
      (a, 0, n) (b, 1, 0) := by
  rcases Nat.lt_or_ge a b with h | h
  · exact Prod.Lex.left _ _ h
  · have hone : a = b := Nat.le_antisymm hab h
    subst hone
    exact Prod.Lex.right _ (Prod.Lex.left _ _ Nat.zero_lt_one)

/-- Lexicographic helper: only the last component drops. -/
theorem lexNat3_last {a c n m : Nat} (h : n < m) :
    Prod.Lex (fun x y : Nat => x < y)
      (Prod.Lex (fun x y : Nat => x < y) fun x y : Nat => x < y)
      (a, c, n) (a, c, m) :=
  Prod.Lex.right _ (Prod.Lex.right _ h)

mutual
/-- `generateClassNames` from `src/utils/classNames.ts`: filter falsy
layers, collect the union of keys, and per key either recursively merge
nested objects, combine strings, or fall back to the last defined value.
(The source binds `layers.filter truthy` once as `validObjects`; it is
repeated here verbatim.) -/
def generateClassNames (layers : List JsVal) (cn : Option (List String → String)) :
    List (String × JsVal) :=
  if (layers.filter truthy).length = 0 then []
  else
    mergeKeys (layers.filter truthy) cn
      (dedupKeys ((layers.filter truthy).map keysOf).flatten)
termination_by (sumJsList layers, 1, 0)
decreasing_by exact lexNat3_le_mid (sumJs_filter_le truthy layers)

/-- The per-key loop of `generateClassNames`. -/
def mergeKeys (validObjects : List JsVal) (cn : Option (List String → String)) :
    List String → List (String × JsVal)
  | [] => []
  | key :: restKeys =>
    match h : collectValues validObjects key with
    | [] => mergeKeys validObjects cn restKeys
    | first :: _ =>
      match first with
      | .jsObj _ =>
        (key, .jsObj (generateClassNames (collectValues validObjects key) cn))
          :: mergeKeys validObjects cn restKeys
      | _ =>
        if (collectValues validObjects key).all isStr then
          (key, .jsStr (mergeStrings cn ((collectValues validObjects key).map strOf)))
            :: mergeKeys validObjects cn restKeys
        else
          (key, (collectValues validObjects key).getLastD .jsUndefined)
            :: mergeKeys validObjects cn restKeys
termination_by ks => (sumJsList validObjects, 0, ks.length)
decreasing_by
  all_goals first
    | exact lexNat3_last (Nat.lt_succ_self _)
    | exact Prod.Lex.left _ _ (sumJs_collect_lt h)
end

/-!  Auxiliary notions for the codec proofs. -/

/-- A Unicode scalar value: in range and not a surrogate. -/
def ValidScalar (c : Nat) : Prop := c < 0x110000 ∧ ¬(0xD800 ≤ c ∧ c < 0xE000)

/-- UTF-8 byte width of a scalar value. -/
def scalarWidth (c : Nat) : Nat :=
  if c < 0x80 then 1 else if c < 0x800 then 2 else if c < 0x10000 then 3 else 4

/-- UTF-8 bytes of a scalar sequence. -/
def encBytes (cs : List Nat) : List Nat := (cs.map encodeScalar).flatten

/-- Total UTF-8 byte width of a scalar sequence. -/
def widthSum (cs : List Nat) : Nat := (cs.map scalarWidth).sum

/-- Closed form of `utf8ByteOffsetToCharIndex` over the scalar sequence:
UTF-16 length of the scalars whose encodings fit inside the first `k`
bytes, plus one for a truncated trailing scalar. -/
def fLen : List Nat → Nat → Nat
  | [], _ => 0
  | c :: rest, k =>
    if k = 0 then 0
    else if k < scalarWidth c then 1
    else u16W c + fLen rest (k - scalarWidth c)

/-!  Codec lemmas. -/

theorem length_encodeScalar (c : Nat) : (encodeScalar c).length = scalarWidth c := by
  unfold encodeScalar scalarWidth
  split_ifs <;> rfl

theorem encBytes_cons (c : Nat) (rest : List Nat) :
    encBytes (c :: rest) = encodeScalar c ++ encBytes rest := by
  simp [encBytes]

theorem decodeRun_nil_some (st : Nat × Nat × Nat × Nat) :
    decodeRun [] (some st) = [0xFFFD] := rfl

theorem decodeRun_cons_none (b : Nat) (rest : List Nat) :
    decodeRun (b :: rest) none = (stepClean b).1 ++ decodeRun rest (stepClean b).2 := rfl

theorem stepClean_ascii {b : Nat} (h : b ≤ 0x7F) : stepClean b = ([b], none) := by
  unfold stepClean
  rw [if_pos h]

theorem stepClean_two {b : Nat} (h1 : 0xC2 ≤ b) (h2 : b ≤ 0xDF) :
    stepClean b = ([], some (1, b - 0xC0, 0x80, 0xBF)) := by
  unfold stepClean
  rw [if_neg (by omega), if_pos ⟨h1, h2⟩]

theorem stepClean_three {b : Nat} (h1 : 0xE0 ≤ b) (h2 : b ≤ 0xEF) :
    stepClean b = ([], some (2, b - 0xE0,
      if b = 0xE0 then 0xA0 else 0x80, if b = 0xED then 0x9F else 0xBF)) := by
  unfold stepClean
  rw [if_neg (by omega), if_neg (by omega), if_pos ⟨h1, h2⟩]

theorem stepClean_four {b : Nat} (h1 : 0xF0 ≤ b) (h2 : b ≤ 0xF4) :
    stepClean b = ([], some (3, b - 0xF0,
      if b = 0xF0 then 0x90 else 0x80, if b = 0xF4 then 0x8F else 0xBF)) := by
  unfold stepClean
  rw [if_neg (by omega), if_neg (by omega), if_neg (by omega), if_pos ⟨h1, h2⟩]

theorem decodeRun_cont_last {b lo hi : Nat} (h1 : lo ≤ b) (h2 : b ≤ hi) (cp : Nat)
    (rest : List Nat) :
    decodeRun (b :: rest) (some (1, cp, lo, hi)) =
      (cp * 64 + (b - 0x80)) :: decodeRun rest none := by
  simp only [decodeRun]
  rw [if_pos ⟨h1, h2⟩, if_pos (by omega)]

theorem decodeRun_cont_more {b lo hi needed : Nat} (h1 : lo ≤ b) (h2 : b ≤ hi)
    (hn : 2 ≤ needed) (cp : Nat) (rest : List Nat) :
    decodeRun (b :: rest) (some (needed, cp, lo, hi)) =
      decodeRun rest (some (needed - 1, cp * 64 + (b - 0x80), 0x80, 0xBF)) := by
  simp only [decodeRun]
  rw [if_pos ⟨h1, h2⟩, if_neg (by omega)]

theorem decodeRun_lead_ascii {b : Nat} (h : b ≤ 0x7F) (rest : List Nat) :
    decodeRun (b :: rest) none = b :: decodeRun rest none := by
  rw [decodeRun_cons_none, stepClean_ascii h]
  rfl

theorem decodeRun_lead_two {b : Nat} (h1 : 0xC2 ≤ b) (h2 : b ≤ 0xDF) (rest : List Nat) :
    decodeRun (b :: rest) none = decodeRun rest (some (1, b - 0xC0, 0x80, 0xBF)) := by
  rw [decodeRun_cons_none, stepClean_two h1 h2]
  rfl

theorem decodeRun_lead_three {b : Nat} (h1 : 0xE0 ≤ b) (h2 : b ≤ 0xEF) (rest : List Nat) :
    decodeRun (b :: rest) none = decodeRun rest (some (2, b - 0xE0,
      if b = 0xE0 then 0xA0 else 0x80, if b = 0xED then 0x9F else 0xBF)) := by
  rw [decodeRun_cons_none, stepClean_three h1 h2]
  rfl

theorem decodeRun_lead_four {b : Nat} (h1 : 0xF0 ≤ b) (h2 : b ≤ 0xF4) (rest : List Nat) :
    decodeRun (b :: rest) none = decodeRun rest (some (3, b - 0xF0,
      if b = 0xF0 then 0x90 else 0x80, if b = 0xF4 then 0x8F else 0xBF)) := by
  rw [decodeRun_cons_none, stepClean_four h1 h2]
  rfl

set_option maxRecDepth 10000 in
/-- Decoding the UTF-8 serialisation of a valid scalar, followed by any
tail, emits exactly that scalar and continues with the tail. -/
theorem decodeRun_enc {c : Nat} (hv : ValidScalar c) (t : List Nat) :
    decodeRun (encodeScalar c ++ t) none = c :: decodeRun t none := by
  obtain ⟨hub, hsur⟩ := hv
  by_cases h1 : c < 0x80
  · rw [show encodeScalar c = [c] by unfold encodeScalar; rw [if_pos h1]]
    rw [List.cons_append, List.nil_append, decodeRun_lead_ascii (by omega)]
  · by_cases h2 : c < 0x800
    · rw [show encodeScalar c = [0xC0 + c / 64, 0x80 + c % 64] by
        unfold encodeScalar; rw [if_neg h1, if_pos h2]]
      rw [List.cons_append, List.cons_append, List.nil_append,
        decodeRun_lead_two (by omega) (by omega)]
      have e2 : decodeRun ((0x80 + c % 64) :: t) (some (1, 0xC0 + c / 64 - 0xC0, 0x80, 0xBF))
          = ((0xC0 + c / 64 - 0xC0) * 64 + (0x80 + c % 64 - 0x80)) :: decodeRun t none :=
        decodeRun_cont_last (by omega) (by omega) _ _
      rw [e2]
      congr 1
      omega
    · by_cases h3 : c < 0x10000
      · rw [show encodeScalar c = [0xE0 + c / 4096, 0x80 + (c / 64) % 64, 0x80 + c % 64] by
          unfold encodeScalar; rw [if_neg h1, if_neg h2, if_pos h3]]
        rw [List.cons_append, List.cons_append, List.cons_append, List.nil_append,
          decodeRun_lead_three (by omega) (by omega)]
        have e2 : decodeRun ((0x80 + (c / 64) % 64) :: (0x80 + c % 64) :: t)
            (some (2, 0xE0 + c / 4096 - 0xE0,
              if 0xE0 + c / 4096 = 0xE0 then 0xA0 else 0x80,
              if 0xE0 + c / 4096 = 0xED then 0x9F else 0xBF))
            = decodeRun ((0x80 + c % 64) :: t)
              (some (2 - 1, (0xE0 + c / 4096 - 0xE0) * 64 + (0x80 + (c / 64) % 64 - 0x80),
                0x80, 0xBF)) :=
          decodeRun_cont_more (by split <;> omega) (by split <;> omega) (by omega) _ _
        rw [e2, show (2 : Nat) - 1 = 1 from rfl]
        have e3 : decodeRun ((0x80 + c % 64) :: t)
            (some (1, (0xE0 + c / 4096 - 0xE0) * 64 + (0x80 + (c / 64) % 64 - 0x80), 0x80, 0xBF))
            = (((0xE0 + c / 4096 - 0xE0) * 64 + (0x80 + (c / 64) % 64 - 0x80)) * 64
                + (0x80 + c % 64 - 0x80)) :: decodeRun t none :=
          decodeRun_cont_last (by omega) (by omega) _ _
        rw [e3]
        congr 1
        omega
      · rw [show encodeScalar c
            = [0xF0 + c / 262144, 0x80 + (c / 4096) % 64, 0x80 + (c / 64) % 64, 0x80 + c % 64] by
          unfold encodeScalar; rw [if_neg h1, if_neg h2, if_neg h3]]
        rw [List.cons_append, List.cons_append, List.cons_append, List.cons_append,
          List.nil_append, decodeRun_lead_four (by omega) (by omega)]
        have e2 : decodeRun ((0x80 + (c / 4096) % 64) :: (0x80 + (c / 64) % 64) :: (0x80 + c % 64) :: t)
            (some (3, 0xF0 + c / 262144 - 0xF0,
              if 0xF0 + c / 262144 = 0xF0 then 0x90 else 0x80,
              if 0xF0 + c / 262144 = 0xF4 then 0x8F else 0xBF))
            = decodeRun ((0x80 + (c / 64) % 64) :: (0x80 + c % 64) :: t)
              (some (3 - 1, (0xF0 + c / 262144 - 0xF0) * 64 + (0x80 + (c / 4096) % 64 - 0x80),
                0x80, 0xBF)) :=
          decodeRun_cont_more (by split <;> omega) (by split <;> omega) (by omega) _ _
        rw [e2, show (3 : Nat) - 1 = 2 from rfl]
        have e3 : decodeRun ((0x80 + (c / 64) % 64) :: (0x80 + c % 64) :: t)
            (some (2, (0xF0 + c / 262144 - 0xF0) * 64 + (0x80 + (c / 4096) % 64 - 0x80),
              0x80, 0xBF))
            = decodeRun ((0x80 + c % 64) :: t)
              (some (2 - 1, ((0xF0 + c / 262144 - 0xF0) * 64 + (0x80 + (c / 4096) % 64 - 0x80))
                * 64 + (0x80 + (c / 64) % 64 - 0x80), 0x80, 0xBF)) :=
          decodeRun_cont_more (by omega) (by omega) (by omega) _ _
        rw [e3, show (2 : Nat) - 1 = 1 from rfl]
        have e4 : decodeRun ((0x80 + c % 64) :: t)
            (some (1, ((0xF0 + c / 262144 - 0xF0) * 64 + (0x80 + (c / 4096) % 64 - 0x80))
              * 64 + (0x80 + (c / 64) % 64 - 0x80), 0x80, 0xBF))
            = ((((0xF0 + c / 262144 - 0xF0) * 64 + (0x80 + (c / 4096) % 64 - 0x80))
              * 64 + (0x80 + (c / 64) % 64 - 0x80)) * 64 + (0x80 + c % 64 - 0x80))
              :: decodeRun t none :=
          decodeRun_cont_last (by omega) (by omega) _ _
        rw [e4]
        congr 1
        omega

set_option maxRecDepth 10000 in
/-- Decoding a proper nonempty prefix of a valid scalar's UTF-8
serialisation yields exactly one replacement character. -/
theorem decodeRun_enc_trunc {c : Nat} (hv : ValidScalar c) {k : Nat} (h0 : 0 < k)
    (hk : k < scalarWidth c) :
    decodeRun ((encodeScalar c).take k) none = [0xFFFD] := by
  obtain ⟨hub, hsur⟩ := hv
  by_cases h1 : c < 0x80
  · exact absurd hk (by unfold scalarWidth; rw [if_pos h1]; omega)
  · by_cases h2 : c < 0x800
    · have hk1 : k = 1 := by
        unfold scalarWidth at hk
        rw [if_neg h1, if_pos h2] at hk
        omega
      subst hk1
      rw [show encodeScalar c = [0xC0 + c / 64, 0x80 + c % 64] by
        unfold encodeScalar; rw [if_neg h1, if_pos h2]]
      rw [show ([0xC0 + c / 64, 0x80 + c % 64].take 1) = [0xC0 + c / 64] from rfl]
      rw [decodeRun_lead_two (by omega) (by omega)]
      exact decodeRun_nil_some _
    · by_cases h3 : c < 0x10000
      · have hk12 : k = 1 ∨ k = 2 := by
          unfold scalarWidth at hk
          rw [if_neg h1, if_neg h2, if_pos h3] at hk
          omega
        rw [show encodeScalar c = [0xE0 + c / 4096, 0x80 + (c / 64) % 64, 0x80 + c % 64] by
          unfold encodeScalar; rw [if_neg h1, if_neg h2, if_pos h3]]
        rcases hk12 with rfl | rfl
        · rw [show ([0xE0 + c / 4096, 0x80 + (c / 64) % 64, 0x80 + c % 64].take 1)
              = [0xE0 + c / 4096] from rfl]
          rw [decodeRun_lead_three (by omega) (by omega)]
          exact decodeRun_nil_some _
        · rw [show ([0xE0 + c / 4096, 0x80 + (c / 64) % 64, 0x80 + c % 64].take 2)
              = [0xE0 + c / 4096, 0x80 + (c / 64) % 64] from rfl]
          rw [decodeRun_lead_three (by omega) (by omega)]
          have e2 : decodeRun [0x80 + (c / 64) % 64]
              (some (2, 0xE0 + c / 4096 - 0xE0,
                if 0xE0 + c / 4096 = 0xE0 then 0xA0 else 0x80,
                if 0xE0 + c / 4096 = 0xED then 0x9F else 0xBF))
              = decodeRun []
                (some (2 - 1, (0xE0 + c / 4096 - 0xE0) * 64 + (0x80 + (c / 64) % 64 - 0x80),
                  0x80, 0xBF)) :=
            decodeRun_cont_more (by split <;> omega) (by split <;> omega) (by omega) _ _
          rw [e2]
          exact decodeRun_nil_some _
      · have hk123 : k = 1 ∨ k = 2 ∨ k = 3 := by
          unfold scalarWidth at hk
          rw [if_neg h1, if_neg h2, if_neg h3] at hk
          omega
        rw [show encodeScalar c
            = [0xF0 + c / 262144, 0x80 + (c / 4096) % 64, 0x80 + (c / 64) % 64, 0x80 + c % 64] by
          unfold encodeScalar; rw [if_neg h1, if_neg h2, if_neg h3]]
        rcases hk123 with rfl | rfl | rfl
        · rw [show ([0xF0 + c / 262144, 0x80 + (c / 4096) % 64, 0x80 + (c / 64) % 64,
              0x80 + c % 64].take 1) = [0xF0 + c / 262144] from rfl]
          rw [decodeRun_lead_four (by omega) (by omega)]
          exact decodeRun_nil_some _
        · rw [show ([0xF0 + c / 262144, 0x80 + (c / 4096) % 64, 0x80 + (c / 64) % 64,
              0x80 + c % 64].take 2) = [0xF0 + c / 262144, 0x80 + (c / 4096) % 64] from rfl]
          rw [decodeRun_lead_four (by omega) (by omega)]
          have e2 : decodeRun [0x80 + (c / 4096) % 64]
              (some (3, 0xF0 + c / 262144 - 0xF0,
                if 0xF0 + c / 262144 = 0xF0 then 0x90 else 0x80,
                if 0xF0 + c / 262144 = 0xF4 then 0x8F else 0xBF))
              = decodeRun []
                (some (3 - 1, (0xF0 + c / 262144 - 0xF0) * 64 + (0x80 + (c / 4096) % 64 - 0x80),
                  0x80, 0xBF)) :=
            decodeRun_cont_more (by split <;> omega) (by split <;> omega) (by omega) _ _
          rw [e2]
          exact decodeRun_nil_some _
        · rw [show ([0xF0 + c / 262144, 0x80 + (c / 4096) % 64, 0x80 + (c / 64) % 64,
              0x80 + c % 64].take 3)
              = [0xF0 + c / 262144, 0x80 + (c / 4096) % 64, 0x80 + (c / 64) % 64] from rfl]
          rw [decodeRun_lead_four (by omega) (by omega)]
          have e2 : decodeRun [0x80 + (c / 4096) % 64, 0x80 + (c / 64) % 64]
              (some (3, 0xF0 + c / 262144 - 0xF0,
                if 0xF0 + c / 262144 = 0xF0 then 0x90 else 0x80,
                if 0xF0 + c / 262144 = 0xF4 then 0x8F else 0xBF))
              = decodeRun [0x80 + (c / 64) % 64]
                (some (3 - 1, (0xF0 + c / 262144 - 0xF0) * 64 + (0x80 + (c / 4096) % 64 - 0x80),
                  0x80, 0xBF)) :=
            decodeRun_cont_more (by split <;> omega) (by split <;> omega) (by omega) _ _
          rw [e2, show (3 : Nat) - 1 = 2 from rfl]
          have e3 : decodeRun [0x80 + (c / 64) % 64]
              (some (2, (0xF0 + c / 262144 - 0xF0) * 64 + (0x80 + (c / 4096) % 64 - 0x80),
                0x80, 0xBF))
              = decodeRun []
                (some (2 - 1, ((0xF0 + c / 262144 - 0xF0) * 64 + (0x80 + (c / 4096) % 64 - 0x80))
                  * 64 + (0x80 + (c / 64) % 64 - 0x80), 0x80, 0xBF)) :=
            decodeRun_cont_more (by omega) (by omega) (by omega) _ _
          rw [e3]
          exact decodeRun_nil_some _

theorem u16Len_cons (c : Nat) (l : List Nat) : u16Len (c :: l) = u16W c + u16Len l := by
  simp [u16Len]

theorem scalarWidth_pos (c : Nat) : 1 ≤ scalarWidth c := by
  unfold scalarWidth
  split_ifs <;> omega

theorem u16W_pos (c : Nat) : 1 ≤ u16W c := by
  unfold u16W
  split_ifs <;> omega

/-- The decoded UTF-16 length of any byte-prefix of an encoded scalar
sequence, in closed form. -/
theorem u16Len_decode_take :
    ∀ (cs : List Nat), (∀ c ∈ cs, ValidScalar c) →
      ∀ k, u16Len (utf8Decode ((encBytes cs).take k)) = fLen cs k := by
  intro cs
  induction cs with
  | nil =>
    intro _ k
    simp [encBytes, fLen, utf8Decode, decodeRun, u16Len]
  | cons c rest ih =>
    intro hv k
    have hvc : ValidScalar c := hv c (List.mem_cons_self c rest)
    have hvr : ∀ x ∈ rest, ValidScalar x := fun x hx => hv x (List.mem_cons_of_mem c hx)
    rw [encBytes_cons, List.take_append_eq_append_take, length_encodeScalar]
    by_cases hk0 : k = 0
    · subst hk0
      simp [utf8Decode, decodeRun, fLen, u16Len]
    · by_cases hklt : k < scalarWidth c
      · have hsub : k - scalarWidth c = 0 := by omega
        rw [hsub]
        simp only [List.take_zero, List.append_nil]
        show u16Len (decodeRun ((encodeScalar c).take k) none) = _
        rw [decodeRun_enc_trunc hvc (by omega) hklt]
        simp only [fLen, if_neg hk0, if_pos hklt]
        rfl
      · have htk : (encodeScalar c).take k = encodeScalar c :=
          List.take_of_length_le (by rw [length_encodeScalar]; omega)
        rw [htk]
        show u16Len (decodeRun (encodeScalar c ++ (encBytes rest).take (k - scalarWidth c)) none)
          = _
        rw [decodeRun_enc hvc, u16Len_cons]
        rw [show decodeRun ((encBytes rest).take (k - scalarWidth c)) none
            = utf8Decode ((encBytes rest).take (k - scalarWidth c)) from rfl]
        rw [ih hvr (k - scalarWidth c)]
        simp only [fLen, if_neg hk0, if_neg hklt]

theorem fLen_mono (cs : List Nat) : ∀ {j k : Nat}, j ≤ k → fLen cs j ≤ fLen cs k := by
  induction cs with
  | nil => intro j k _; simp [fLen]
  | cons c rest ih =>
    intro j k h
    have hu := u16W_pos c
    simp only [fLen]
    by_cases hj0 : j = 0
    · rw [if_pos hj0]
      omega
    · rw [if_neg hj0, if_neg (show ¬k = 0 by omega)]
      by_cases hjw : j < scalarWidth c
      · rw [if_pos hjw]
        by_cases hkw : k < scalarWidth c
        · rw [if_pos hkw]
        · rw [if_neg hkw]
          have hrest : 0 ≤ fLen rest (k - scalarWidth c) := Nat.zero_le _
          omega
      · rw [if_neg hjw, if_neg (show ¬k < scalarWidth c by omega)]
        have := ih (show j - scalarWidth c ≤ k - scalarWidth c by omega)
        omega

theorem widthSum_cons (c : Nat) (rest : List Nat) :
    widthSum (c :: rest) = scalarWidth c + widthSum rest := by
  simp [widthSum]

theorem length_encBytes (cs : List Nat) : (encBytes cs).length = widthSum cs := by
  induction cs with
  | nil => rfl
  | cons c rest ih =>
    rw [encBytes_cons, List.length_append, length_encodeScalar, ih, widthSum_cons]

theorem fLen_widthSum (cs : List Nat) : fLen cs (widthSum cs) = u16Len cs := by
  induction cs with
  | nil => rfl
  | cons c rest ih =>
    have hw := scalarWidth_pos c
    rw [widthSum_cons]
    simp only [fLen]
    rw [if_neg (by omega), if_neg (by omega)]
    rw [show scalarWidth c + widthSum rest - scalarWidth c = widthSum rest by omega]
    rw [ih, u16Len_cons]

theorem fLen_widthSum_take (cs : List Nat) :
    ∀ n, fLen cs (widthSum (cs.take n)) = u16Len (cs.take n) := by
  induction cs with
  | nil => intro n; simp [widthSum, fLen, u16Len]
  | cons c rest ih =>
    intro n
    cases n with
    | zero => simp [widthSum, fLen, u16Len]
    | succ m =>
      rw [List.take_succ_cons, widthSum_cons, u16Len_cons]
      have hw := scalarWidth_pos c
      simp only [fLen]
      rw [if_neg (by omega), if_neg (by omega)]
      rw [show scalarWidth c + widthSum (rest.take m) - scalarWidth c
          = widthSum (rest.take m) by omega]
      rw [ih m]

theorem toScalars_cons_pair {u v : CodeUnit} (h1 : 0xD800 ≤ (u : Nat) ∧ (u : Nat) ≤ 0xDBFF)
    (h2 : 0xDC00 ≤ (v : Nat) ∧ (v : Nat) ≤ 0xDFFF) (tail : JSStr) :
    toScalars (u :: v :: tail) =
      (0x10000 + ((u : Nat) - 0xD800) * 0x400 + ((v : Nat) - 0xDC00)) :: toScalars tail := by
  simp [toScalars, h1, h2]

theorem toScalars_cons_high_nonlow {u : CodeUnit}
    (h1 : 0xD800 ≤ (u : Nat) ∧ (u : Nat) ≤ 0xDBFF) (tail : JSStr)
    (htail : ∀ (w : CodeUnit) (l : JSStr), tail = w :: l →
      ¬(0xDC00 ≤ (w : Nat) ∧ (w : Nat) ≤ 0xDFFF)) :
    toScalars (u :: tail) = 0xFFFD :: toScalars tail := by
  cases tail with
  | nil => simp [toScalars, h1]
  | cons w l => simp [toScalars, h1, htail w l rfl]

theorem toScalars_cons_low {u : CodeUnit} (h1 : 0xDC00 ≤ (u : Nat) ∧ (u : Nat) ≤ 0xDFFF)
    (tail : JSStr) : toScalars (u :: tail) = 0xFFFD :: toScalars tail := by
  have hnh : ¬(0xD800 ≤ (u : Nat) ∧ (u : Nat) ≤ 0xDBFF) := by omega
  cases tail with
  | nil => simp [toScalars, hnh, h1]
  | cons w l => simp [toScalars, hnh, h1]

theorem toScalars_cons_bmp {u : CodeUnit} (h1 : ¬(0xD800 ≤ (u : Nat) ∧ (u : Nat) ≤ 0xDBFF))
    (h2 : ¬(0xDC00 ≤ (u : Nat) ∧ (u : Nat) ≤ 0xDFFF)) (tail : JSStr) :
    toScalars (u :: tail) = (u : Nat) :: toScalars tail := by
  cases tail with
  | nil => simp [toScalars, h1, h2]
  | cons w l => simp [toScalars, h1, h2]

theorem toScalars_valid (s : JSStr) : ∀ c ∈ toScalars s, ValidScalar c := by
  induction s using toScalars.induct with
  | case1 => simp [toScalars]
  | case2 u h =>
    intro c hc
    simp only [toScalars, if_pos h, List.mem_singleton] at hc
    unfold ValidScalar
    omega
  | case3 u h =>
    intro c hc
    simp only [toScalars, if_neg h, List.mem_singleton] at hc
    have := u.isLt
    unfold ValidScalar
    omega
  | case4 u v rest2 h1 h2 ih =>
    intro c hc
    rw [toScalars_cons_pair h1 h2] at hc
    rcases List.mem_cons.mp hc with hc | hc
    · unfold ValidScalar
      omega
    · exact ih c hc
  | case5 u v rest2 h1 h2 ih =>
    intro c hc
    rw [toScalars_cons_high_nonlow h1 _ (by
      intro w l hw
      injection hw with hww _
      subst hww
      exact h2)] at hc
    rcases List.mem_cons.mp hc with hc | hc
    · unfold ValidScalar
      omega
    · exact ih c hc
  | case6 u v rest2 h1 h2 ih =>
    intro c hc
    rw [toScalars_cons_low h2] at hc
    rcases List.mem_cons.mp hc with hc | hc
    · unfold ValidScalar
      omega
    · exact ih c hc
  | case7 u v rest2 h1 h2 ih =>
    intro c hc
    rw [toScalars_cons_bmp h1 h2] at hc
    rcases List.mem_cons.mp hc with hc | hc
    · have := u.isLt
      unfold ValidScalar
      omega
    · exact ih c hc

theorem u16Len_toScalars (s : JSStr) : u16Len (toScalars s) = s.length := by
  induction s using toScalars.induct with
  | case1 => rfl
  | case2 u h => simp [toScalars, if_pos h, u16Len, u16W]
  | case3 u h =>
    have := u.isLt
    simp only [toScalars, if_neg h]
    rw [u16Len_cons, show u16Len [] = 0 from rfl,
      show u16W (u : Nat) = 1 by unfold u16W; rw [if_pos (by omega)]]
    rfl
  | case4 u v rest2 h1 h2 ih =>
    rw [toScalars_cons_pair h1 h2, u16Len_cons, ih,
      show u16W (0x10000 + ((u : Nat) - 0xD800) * 0x400 + ((v : Nat) - 0xDC00)) = 2 by
        unfold u16W; rw [if_neg (by omega)]]
    simp [List.length_cons]
    omega
  | case5 u v rest2 h1 h2 ih =>
    rw [toScalars_cons_high_nonlow h1 _ (by
      intro w l hw
      injection hw with hww _
      subst hww
      exact h2)]
    rw [u16Len_cons, ih, show u16W 0xFFFD = 1 from rfl]
    simp [List.length_cons]
    omega
  | case6 u v rest2 h1 h2 ih =>
    rw [toScalars_cons_low h2, u16Len_cons, ih, show u16W 0xFFFD = 1 from rfl]
    simp [List.length_cons]
    omega
  | case7 u v rest2 h1 h2 ih =>
    have := u.isLt
    rw [toScalars_cons_bmp h1 h2, u16Len_cons, ih,
      show u16W (u : Nat) = 1 by unfold u16W; rw [if_pos (by omega)]]
    simp [List.length_cons]
    omega

theorem scalarToUnits_length (c : Nat) : (scalarToUnits c).length = u16W c := by
  unfold scalarToUnits u16W
  split_ifs <;> rfl

theorem utf8DecodeStr_length (b : List Nat) :
    (utf8DecodeStr b).length = u16Len (utf8Decode b) := by
  unfold utf8DecodeStr u16Len
  rw [List.length_flatten, List.map_map]
  congr 1
  simp [Function.comp_def, scalarToUnits_length]

theorem charIndex_eq_fLen (s : JSStr) (k : Nat) :
    utf8ByteOffsetToCharIndex s k = fLen (toScalars s) k := by
  unfold utf8ByteOffsetToCharIndex
  rw [utf8DecodeStr_length]
  exact u16Len_decode_take (toScalars s) (toScalars_valid s) k

theorem charIndex_zero (s : JSStr) : utf8ByteOffsetToCharIndex s 0 = 0 := by
  rw [charIndex_eq_fLen]
  cases toScalars s <;> simp [fLen]

theorem charIndex_mono (s : JSStr) {j k : Nat} (h : j ≤ k) :
    utf8ByteOffsetToCharIndex s j ≤ utf8ByteOffsetToCharIndex s k := by
  rw [charIndex_eq_fLen, charIndex_eq_fLen]
  exact fLen_mono _ h

theorem charIndex_byteLength (s : JSStr) :
    utf8ByteOffsetToCharIndex s (utf8ByteLength s) = s.length := by
  rw [charIndex_eq_fLen]
  rw [show utf8ByteLength s = widthSum (toScalars s) from length_encBytes (toScalars s)]
  rw [fLen_widthSum, u16Len_toScalars]

/-- `toScalars` commutes with taking a prefix of whole scalars. -/
theorem toScalars_take (s : JSStr) :
    ∀ n, toScalars (s.take (u16Len ((toScalars s).take n))) = (toScalars s).take n := by
  induction s using toScalars.induct with
  | case1 => intro n; simp [toScalars]
  | case2 u h =>
    intro n
    cases n with
    | zero => simp [toScalars]
    | succ m =>
      rw [show toScalars [u] = [0xFFFD] by simp [toScalars, h]]
      rw [List.take_succ_cons, List.take_nil]
      rw [show u16Len [0xFFFD] = 1 from rfl]
      rw [show ([u] : JSStr).take 1 = [u] from rfl]
      simp [toScalars, h]
  | case3 u h =>
    intro n
    cases n with
    | zero => simp [toScalars]
    | succ m =>
      have hu := u.isLt
      rw [show toScalars [u] = [(u : Nat)] by simp [toScalars, h]]
      rw [List.take_succ_cons, List.take_nil]
      rw [show u16Len [(u : Nat)] = 1 by
        rw [u16Len_cons, show u16Len [] = 0 from rfl,
          show u16W (u : Nat) = 1 by unfold u16W; rw [if_pos (by omega)]]]
      rw [show ([u] : JSStr).take 1 = [u] from rfl]
      simp [toScalars, h]
  | case4 u v rest2 h1 h2 ih =>
    intro n
    cases n with
    | zero =>
      rw [List.take_zero, show u16Len [] = 0 from rfl, List.take_zero]
      rfl
    | succ m =>
      rw [toScalars_cons_pair h1 h2, List.take_succ_cons, u16Len_cons]
      rw [show u16W (0x10000 + ((u : Nat) - 0xD800) * 0x400 + ((v : Nat) - 0xDC00)) = 2 by
        unfold u16W; rw [if_neg (by omega)]]
      rw [show 2 + u16Len ((toScalars rest2).take m)
          = (u16Len ((toScalars rest2).take m) + 1) + 1 by omega]
      rw [List.take_succ_cons, List.take_succ_cons]
      rw [toScalars_cons_pair h1 h2]
      rw [ih m]
  | case5 u v rest2 h1 h2 ih =>
    intro n
    cases n with
    | zero =>
      rw [List.take_zero, show u16Len [] = 0 from rfl, List.take_zero]
      rfl
    | succ m =>
      rw [toScalars_cons_high_nonlow h1 (v :: rest2) (by
        intro w l hw
        injection hw with hww _
        subst hww
        exact h2)]
      rw [List.take_succ_cons, u16Len_cons, show u16W 0xFFFD = 1 from rfl]
      rw [show 1 + u16Len ((toScalars (v :: rest2)).take m)
          = u16Len ((toScalars (v :: rest2)).take m) + 1 by omega]
      rw [List.take_succ_cons]
      rw [toScalars_cons_high_nonlow h1 _ (by
        intro w l hw
        cases hL : u16Len ((toScalars (v :: rest2)).take m) with
        | zero => rw [hL] at hw; simp at hw
        | succ j =>
          rw [hL, List.take_succ_cons] at hw
          injection hw with hww _
          subst hww
          exact h2)]
      rw [ih m]
  | case6 u v rest2 h1 h2 ih =>
    intro n
    cases n with
    | zero =>
      rw [List.take_zero, show u16Len [] = 0 from rfl, List.take_zero]
      rfl
    | succ m =>
      rw [toScalars_cons_low h2, List.take_succ_cons, u16Len_cons,
        show u16W 0xFFFD = 1 from rfl]
      rw [show 1 + u16Len ((toScalars (v :: rest2)).take m)
          = u16Len ((toScalars (v :: rest2)).take m) + 1 by omega]
      rw [List.take_succ_cons]
      rw [toScalars_cons_low h2]
      rw [ih m]
  | case7 u v rest2 h1 h2 ih =>
    intro n
    cases n with
    | zero =>
      rw [List.take_zero, show u16Len [] = 0 from rfl, List.take_zero]
      rfl
    | succ m =>
      have hu := u.isLt
      rw [toScalars_cons_bmp h1 h2, List.take_succ_cons, u16Len_cons,
        show u16W (u : Nat) = 1 by unfold u16W; rw [if_pos (by omega)]]
      rw [show 1 + u16Len ((toScalars (v :: rest2)).take m)
          = u16Len ((toScalars (v :: rest2)).take m) + 1 by omega]
      rw [List.take_succ_cons]
      rw [toScalars_cons_bmp h1 h2]
      rw [ih m]

/-- A byte offset lying on a UTF-8 code-point boundary of the encoding of
`s`: the total width of some prefix of the scalar sequence. -/
def IsCodePointBoundary (s : JSStr) (k : Nat) : Prop :=
  ∃ n, k = widthSum ((toScalars s).take n)

theorem charIndex_boundary (s : JSStr) {k : Nat} (hb : IsCodePointBoundary s k) :
    utf8ByteLength (s.take (utf8ByteOffsetToCharIndex s k)) = k := by
  obtain ⟨n, rfl⟩ := hb
  rw [charIndex_eq_fLen, fLen_widthSum_take]
  rw [show utf8ByteLength (s.take (u16Len ((toScalars s).take n)))
      = widthSum (toScalars (s.take (u16Len ((toScalars s).take n)))) from
    length_encBytes _]
  rw [toScalars_take s n]

theorem jsSlice_self (s : JSStr) (a : Nat) : jsSlice s a a = [] := by
  unfold jsSlice
  apply List.drop_eq_nil_of_le
  rw [List.length_take]
  omega

theorem drop_take_append_drop (t : List CodeUnit) (a b : Nat) (hab : a ≤ b) :
    (t.take b).drop a ++ t.drop b = t.drop a := by
  by_cases hta : t.length ≤ a
  · have hd1 : t.drop a = [] := List.drop_eq_nil_of_le hta
    have hd2 : t.drop b = [] := List.drop_eq_nil_of_le (by omega)
    have hd3 : (t.take b).drop a = [] := List.drop_eq_nil_of_le (by
      rw [List.length_take]
      exact le_trans (Nat.min_le_right _ _) hta)
    rw [hd1, hd2, hd3]
    rfl
  · conv_rhs => rw [← List.take_append_drop b t]
    rw [List.drop_append_eq_append_drop]
    congr 1
    rw [List.length_take]
    have hmin : a ≤ min b t.length := Nat.le_min.mpr ⟨hab, by omega⟩
    rw [Nat.sub_eq_zero_of_le hmin, List.drop_zero]

theorem jsSlice_append (s : JSStr) {a b c : Nat} (hab : a ≤ b) (hbc : b ≤ c) :
    jsSlice s a b ++ jsSlice s b c = jsSlice s a c := by
  unfold jsSlice
  rw [show s.take b = (s.take c).take b by rw [List.take_take, Nat.min_eq_left hbc]]
  exact drop_take_append_drop (s.take c) a b hab

theorem sliceByByteOffset_self (s : JSStr) (a : Nat) : sliceByByteOffset s a a = [] :=
  jsSlice_self s _

theorem sliceByByteOffset_append (s : JSStr) {a b c : Nat} (hab : a ≤ b) (hbc : b ≤ c) :
    sliceByByteOffset s a b ++ sliceByByteOffset s b c = sliceByByteOffset s a c := by
  unfold sliceByByteOffset
  exact jsSlice_append s (charIndex_mono s hab) (charIndex_mono s hbc)

theorem concatSegs_nil : concatSegs [] = [] := rfl

theorem concatSegs_cons (seg : RichTextSegment) (rest : List RichTextSegment) :
    concatSegs (seg :: rest) = seg.text ++ concatSegs rest := by
  simp [concatSegs]

theorem concatSegs_append (l1 l2 : List RichTextSegment) :
    concatSegs (l1 ++ l2) = concatSegs l1 ++ concatSegs l2 := by
  simp [concatSegs]

/-- The cursor loop reconstructs exactly the byte range `[cursor, tbl)`
of the text, for any facet list whatsoever. -/
theorem parseLoop_concat (text : JSStr) (tbl : Nat) :
    ∀ (fs : List Facet) (cursor : Nat), cursor ≤ tbl →
      concatSegs (parseLoop text tbl fs cursor) = sliceByByteOffset text cursor tbl := by
  intro fs
  induction fs with
  | nil =>
    intro cursor hc
    simp only [parseLoop]
    by_cases h : cursor < tbl
    · rw [if_pos h, concatSegs_cons, concatSegs_nil, List.append_nil]
    · rw [if_neg h]
      have hct : cursor = tbl := by omega
      rw [hct, concatSegs_nil, sliceByByteOffset_self]
  | cons f rest ih =>
    intro cursor hc
    simp only [parseLoop]
    by_cases hg : f.index.byteStart < cursor ∨ tbl < f.index.byteEnd ∨
        f.index.byteEnd ≤ f.index.byteStart
    · rw [if_pos hg]
      exact ih cursor hc
    · rw [if_neg hg]
      push_neg at hg
      obtain ⟨h1, h2, h3⟩ := hg
      rw [concatSegs_append, concatSegs_cons]
      have hgap : concatSegs (if cursor < f.index.byteStart then
          [{ text := sliceByByteOffset text cursor f.index.byteStart, feature := none }]
          else [])
          = sliceByByteOffset text cursor f.index.byteStart := by
        by_cases hlt : cursor < f.index.byteStart
        · rw [if_pos hlt, concatSegs_cons, concatSegs_nil, List.append_nil]
        · rw [if_neg hlt]
          have hcb : cursor = f.index.byteStart := by omega
          rw [hcb, concatSegs_nil, sliceByByteOffset_self]
      rw [hgap, ih f.index.byteEnd (by omega)]
      rw [← List.append_assoc]
      rw [sliceByByteOffset_append text (by omega) (by omega)]
      rw [sliceByByteOffset_append text (by omega) (by omega)]

theorem generateClassNames_unfold (layers : List JsVal) (cn : Option (List String → String)) :
    generateClassNames layers cn =
      if (layers.filter truthy).length = 0 then []
      else
        mergeKeys (layers.filter truthy) cn
          (dedupKeys ((layers.filter truthy).map keysOf).flatten) := by
  rw [generateClassNames]

theorem mergeKeys_nil (vo : List JsVal) (cn : Option (List String → String)) :
    mergeKeys vo cn [] = [] := by
  rw [mergeKeys]

theorem mergeKeys_cons_skip {vo : List JsVal} {key : String} (cn : Option (List String → String))
    (ks : List String) (h : collectValues vo key = []) :
    mergeKeys vo cn (key :: ks) = mergeKeys vo cn ks := by
  rw [mergeKeys]
  split
  · rfl
  · rename_i first tail heq
    rw [h] at heq
    cases heq

theorem mergeKeys_cons_obj {vo : List JsVal} {key : String} {o : List (String × JsVal)}
    {vs : List JsVal} (cn : Option (List String → String)) (ks : List String)
    (h : collectValues vo key = .jsObj o :: vs) :
    mergeKeys vo cn (key :: ks) =
      (key, .jsObj (generateClassNames (collectValues vo key) cn)) :: mergeKeys vo cn ks := by
  rw [mergeKeys]
  split
  · rename_i heq
    rw [h] at heq
    cases heq
  · rename_i first tail heq
    rw [h] at heq
    injection heq with h1 h2
    subst h1
    rfl

theorem mergeKeys_cons_str {vo : List JsVal} {key : String} {v : JsVal} {vs : List JsVal}
    (cn : Option (List String → String)) (ks : List String)
    (h : collectValues vo key = v :: vs) (hs : (collectValues vo key).all isStr = true) :
    mergeKeys vo cn (key :: ks) =
      (key, .jsStr (mergeStrings cn ((collectValues vo key).map strOf))) :: mergeKeys vo cn ks := by
  have hv : isStr v = true := by
    rw [h] at hs
    exact (List.all_cons .. ▸ hs : (isStr v && vs.all isStr) = true) |> Bool.and_elim_left
  rw [mergeKeys]
  split
  · rename_i heq
    rw [h] at heq
    cases heq
  · rename_i first tail heq
    rw [h] at heq
    injection heq with h1 h2
    subst h1
    cases v with
    | jsStr s => simp only [if_pos hs]
    | jsObj fields => cases hv
    | jsUndefined => cases hv
    | jsNull => cases hv
    | jsBool b => cases hv

mutual
/-- Well-formed style configuration value: a class-name string, or a
nested configuration object with distinct keys and well-formed values
(the `StyleConfig` shape of the specification). -/
def wfVal : JsVal → Bool
  | .jsStr _ => true
  | .jsObj fields => decide ((fields.map Prod.fst).Nodup) && wfFields fields
  | _ => false
/-- Well-formedness of an object's field list. -/
def wfFields : List (String × JsVal) → Bool
  | [] => true
  | (_, v) :: rest => wfVal v && wfFields rest
end

theorem dedupAux_of_disjoint :
    ∀ (ks seen : List String), ks.Nodup → (∀ k ∈ ks, k ∉ seen) → dedupAux ks seen = ks := by
  intro ks
  induction ks with
  | nil => intro seen _ _; rfl
  | cons k rest ih =>
    intro seen hnd hdis
    rw [List.nodup_cons] at hnd
    unfold dedupAux
    rw [if_neg (hdis k (List.mem_cons_self k rest))]
    rw [ih (k :: seen) hnd.2 (by
      intro x hx hmem
      rcases List.mem_cons.mp hmem with hxk | hxs
      · exact hnd.1 (hxk ▸ hx)
      · exact hdis x (List.mem_cons_of_mem k hx) hxs)]

theorem dedupKeys_of_nodup {ks : List String} (h : ks.Nodup) : dedupKeys ks = ks :=
  dedupAux_of_disjoint ks [] h (by simp)

theorem getProp_obj_cons_pos {a : String} {b : JsVal} {rest : List (String × JsVal)} {k : String}
    (h : (a == k) = true) : getProp (.jsObj ((a, b) :: rest)) k = b := by
  simp only [getProp]
  rw [List.find?_cons_of_pos _ (by exact h)]

theorem getProp_obj_cons_neg {a : String} {b : JsVal} {rest : List (String × JsVal)} {k : String}
    (h : (a == k) = false) : getProp (.jsObj ((a, b) :: rest)) k = getProp (.jsObj rest) k := by
  simp only [getProp]
  rw [List.find?_cons_of_neg _ (by simp [h])]

theorem getProp_of_mem {fields : List (String × JsVal)} (hnd : (fields.map Prod.fst).Nodup)
    {k : String} {v : JsVal} (hm : (k, v) ∈ fields) : getProp (.jsObj fields) k = v := by
  induction fields with
  | nil => cases hm
  | cons q rest ih =>
    obtain ⟨a, b⟩ := q
    rw [List.map_cons, List.nodup_cons] at hnd
    rcases List.mem_cons.mp hm with heq | hmem
    · injection heq with h1 h2
      subst h1
      subst h2
      exact getProp_obj_cons_pos (by simp)
    · have hka : (a == k) = false := by
        by_contra hcon
        have hak : a = k := by
          cases hb : (a == k) with
          | false => exact absurd hb hcon
          | true => exact eq_of_beq hb
        subst hak
        exact hnd.1 (by simpa using List.mem_map_of_mem Prod.fst hmem)
      rw [getProp_obj_cons_neg hka]
      exact ih hnd.2 hmem

theorem wfFields_mem {fields : List (String × JsVal)} (h : wfFields fields = true)
    {p : String × JsVal} (hp : p ∈ fields) : wfVal p.2 = true := by
  induction fields with
  | nil => cases hp
  | cons q rest ih =>
    obtain ⟨a, b⟩ := q
    simp only [wfFields, Bool.and_eq_true] at h
    rcases List.mem_cons.mp hp with heq | hmem
    · subst heq
      exact h.1
    · exact ih h.2 hmem

theorem mergeStrings_single (s : String) : mergeStrings none [s] = s := by
  rw [show mergeStrings none [s]
      = String.intercalate " " ([s].filter (fun t => !t.isEmpty)) from rfl]
  by_cases h : s.isEmpty
  · rw [show ([s].filter (fun t => !t.isEmpty)) = [] by simp [h]]
    rw [show String.intercalate " " [] = "" from rfl]
    exact ((String.isEmpty_iff s).mp h).symm
  · rw [show ([s].filter (fun t => !t.isEmpty)) = [s] by simp [h]]
    rfl

theorem filter_truthy_idem (l : List JsVal) :
    (l.filter truthy).filter truthy = l.filter truthy := by
  induction l with
  | nil => rfl
  | cons x rest ih =>
    rw [List.filter_cons]
    by_cases h : truthy x = true
    · rw [if_pos h, List.filter_cons, if_pos h, ih]
    · rw [if_neg h]
      exact ih

/-- Merging the one-element layer list of a well-formed configuration
object reproduces its field list exactly. -/
theorem gc_single_copy :
    ∀ (n : Nat) (fields : List (String × JsVal)), jsSize (.jsObj fields) ≤ n →
      wfVal (.jsObj fields) = true → generateClassNames [.jsObj fields] none = fields := by
  intro n
  induction n with
  | zero =>
    intro fields hsz _
    simp [jsSize] at hsz
  | succ m ih =>
    intro fields hsz hwf
    simp only [wfVal, Bool.and_eq_true] at hwf
    have hnd : (fields.map Prod.fst).Nodup := of_decide_eq_true hwf.1
    have hwff : wfFields fields = true := hwf.2
    rw [generateClassNames_unfold]
    rw [show ([JsVal.jsObj fields].filter truthy) = [.jsObj fields] from rfl]
    rw [if_neg (by simp)]
    rw [show (([JsVal.jsObj fields].map keysOf).flatten) = dedupKeys (fields.map Prod.fst) from by
      simp [keysOf]]
    rw [dedupKeys_of_nodup hnd, dedupKeys_of_nodup hnd]
    have main : ∀ (fields2 : List (String × JsVal)), (∀ p ∈ fields2, p ∈ fields) →
        mergeKeys [.jsObj fields] none (fields2.map Prod.fst) = fields2 := by
      intro fields2
      induction fields2 with
      | nil =>
        intro _
        rw [List.map_nil, mergeKeys_nil]
      | cons q rest2 ih2 =>
        intro hsub
        obtain ⟨k, v⟩ := q
        have hqmem : (k, v) ∈ fields := hsub _ (List.mem_cons_self _ _)
        have hget : getProp (.jsObj fields) k = v := getProp_of_mem hnd hqmem
        have hv : wfVal v = true := wfFields_mem hwff hqmem
        have hvu : isUndefined v = false := by
          cases v with
          | jsStr s => rfl
          | jsObj g => rfl
          | jsUndefined => simp [wfVal] at hv
          | jsNull => simp [wfVal] at hv
          | jsBool b => simp [wfVal] at hv
        have hcoll : collectValues [.jsObj fields] k = [v] := by
          simp [collectValues, hget, hvu]
        rw [List.map_cons]
        have hrest : mergeKeys [.jsObj fields] none (rest2.map Prod.fst) = rest2 :=
          ih2 (fun p hp => hsub p (List.mem_cons_of_mem _ hp))
        cases v with
        | jsStr s =>
          rw [mergeKeys_cons_str none (rest2.map Prod.fst) hcoll (by rw [hcoll]; rfl)]
          rw [hrest, hcoll]
          rw [show (List.map strOf [JsVal.jsStr s]) = [s] from rfl, mergeStrings_single]
        | jsObj g =>
          rw [mergeKeys_cons_obj none (rest2.map Prod.fst) hcoll]
          rw [hrest, hcoll]
          have hsz2 : jsSize (.jsObj g) ≤ m := by
            have h1 := fieldsSize_of_mem hqmem
            simp only [jsSize] at hsz h1 ⊢
            omega
          rw [ih g hsz2 hv]
        | jsUndefined => simp [wfVal] at hv
        | jsNull => simp [wfVal] at hv
        | jsBool b => simp [wfVal] at hv
    exact main fields (fun p hp => hp)

/-- The string `"Hello world"` as a JavaScript string (ASCII code units). -/
def helloWorld : JSStr := [72, 101, 108, 108, 111, 32, 119, 111, 114, 108, 100]

/-- The single emoji U+1F389 as a JavaScript string: one surrogate pair,
two UTF-16 code units, four UTF-8 bytes. -/
def emojiText : JSStr := [55356, 57225]

/-- U+1F389 followed by `"a"`. -/
def emojiA : JSStr := [55356, 57225, 97]

/-- C1: for every `RichTextRecord` — facets absent, empty, or of
arbitrary validity (overlapping, out-of-bounds, reversed, or with byte
offsets off UTF-8 code-point boundaries) — concatenating the `text` of
every segment of `parseRichText`, in order, yields exactly the record's
`text`, code unit for code unit. -/
theorem claim_C1_round_trip (record : RichTextRecord) :
    concatSegs (parseRichText record) = record.text := by
  obtain ⟨text, facets⟩ := record
  cases facets with
  | none =>
    rw [show parseRichText ⟨text, none⟩ = [{ text := text, feature := none }] from rfl]
    rw [concatSegs_cons, concatSegs_nil, List.append_nil]
  | some fs =>
    rw [show parseRichText ⟨text, some fs⟩
        = if fs.length = 0 then [{ text := text, feature := none }]
          else parseLoop text (utf8ByteLength text) (sortFacets fs) 0 from rfl]
    by_cases h0 : fs.length = 0
    · rw [if_pos h0, concatSegs_cons, concatSegs_nil, List.append_nil]
    · rw [if_neg h0,
        parseLoop_concat text (utf8ByteLength text) (sortFacets fs) 0 (Nat.zero_le _)]
      unfold sliceByByteOffset
      rw [charIndex_zero, charIndex_byteLength]
      unfold jsSlice
      rw [List.take_length, List.drop_zero]

/-- C2: in the cursor loop of `parseRichText`, a facet is skipped — the
output equals the run without it, no segment emitted, cursor unchanged —
exactly when `byteStart < cursor`, `byteEnd > textByteLength`, or
`byteStart ≥ byteEnd`; otherwise its segments are emitted and the cursor
advances to `byteEnd`.  In particular `"Hello world"` with the single
facet `{byteStart := 5, byteEnd := 2}` parses to the single plain
segment `"Hello world"`. -/
theorem claim_C2_facet_skip :
    (∀ (text : JSStr) (tbl : Nat) (f : Facet) (rest : List Facet) (cursor : Nat),
      ((f.index.byteStart < cursor ∨ tbl < f.index.byteEnd ∨
          f.index.byteEnd ≤ f.index.byteStart) →
        parseLoop text tbl (f :: rest) cursor = parseLoop text tbl rest cursor)
      ∧ (¬(f.index.byteStart < cursor ∨ tbl < f.index.byteEnd ∨
          f.index.byteEnd ≤ f.index.byteStart) →
        parseLoop text tbl (f :: rest) cursor =
          (if cursor < f.index.byteStart then
            [{ text := sliceByByteOffset text cursor f.index.byteStart, feature := none }]
          else []) ++
          { text := sliceByByteOffset text f.index.byteStart f.index.byteEnd,
            feature := pickFeature f.features }
            :: parseLoop text tbl rest f.index.byteEnd))
    ∧ parseRichText ⟨helloWorld, some [⟨⟨5, 2⟩, [.tag "bad"]⟩]⟩
        = [{ text := helloWorld, feature := none }] := by
  constructor
  · intro text tbl f rest cursor
    constructor
    · intro hg
      simp only [parseLoop]
      rw [if_pos hg]
    · intro hg
      simp only [parseLoop]
      rw [if_neg hg]
  · decide

/-- Witness for C2: the reversed facet `{5, 2}` is skipped from cursor 0
(guard holds), and the facet `{0, 5}` from cursor 0 is emitted with the
cursor advanced to 5 (guard fails). -/
theorem claim_C2_facet_skip_witness :
    parseLoop helloWorld 11 [⟨⟨5, 2⟩, []⟩] 0 = parseLoop helloWorld 11 [] 0 ∧
    parseLoop helloWorld 11 [⟨⟨0, 5⟩, []⟩] 0 =
      (if 0 < 0 then [{ text := sliceByByteOffset helloWorld 0 0, feature := none }] else []) ++
      { text := sliceByByteOffset helloWorld 0 5, feature := pickFeature [] }
        :: parseLoop helloWorld 11 [] 5 :=
  ⟨(claim_C2_facet_skip.1 helloWorld 11 ⟨⟨5, 2⟩, []⟩ [] 0).1 (by decide),
   (claim_C2_facet_skip.1 helloWorld 11 ⟨⟨0, 5⟩, []⟩ [] 0).2 (by decide)⟩

/-- C3: for a byte offset on a UTF-8 code-point boundary,
`utf8ByteOffsetToCharIndex` returns the native index whose prefix
re-encodes to exactly that many bytes; offset 0 maps to 0 and
`utf8ByteLength text` maps to the native string length. -/
theorem claim_C3_char_index (s : JSStr) (k : Nat) (hb : IsCodePointBoundary s k) :
    utf8ByteLength (s.take (utf8ByteOffsetToCharIndex s k)) = k ∧
    utf8ByteOffsetToCharIndex s 0 = 0 ∧
    utf8ByteOffsetToCharIndex s (utf8ByteLength s) = s.length :=
  ⟨charIndex_boundary s hb, charIndex_zero s, charIndex_byteLength s⟩

/-- Witness for C3: in `"🎉a"`, byte offset 4 is the boundary after the
emoji; the returned index 2 re-encodes to exactly 4 bytes. -/
theorem claim_C3_char_index_witness :
    IsCodePointBoundary emojiA 4 ∧
    (utf8ByteLength (emojiA.take (utf8ByteOffsetToCharIndex emojiA 4)) = 4 ∧
     utf8ByteOffsetToCharIndex emojiA 0 = 0 ∧
     utf8ByteOffsetToCharIndex emojiA (utf8ByteLength emojiA) = emojiA.length) :=
  ⟨⟨1, by decide⟩, claim_C3_char_index emojiA 4 ⟨1, by decide⟩⟩

/-- C5: neither core operation can fail: `parseRichText` and
`generateClassNames` are total functions of the embedding — they return
a value on every input, with no error channel anywhere in their
definitions (totality of the recursion in `generateClassNames` is
certified by the termination measure `sumJsList`). -/
theorem claim_C5_totality :
    (∀ (record : RichTextRecord), ∃ segs, parseRichText record = segs) ∧
    (∀ (layers : List JsVal) (cn : Option (List String → String)),
      ∃ out, generateClassNames layers cn = out) :=
  ⟨fun record => ⟨parseRichText record, rfl⟩,
   fun layers cn => ⟨generateClassNames layers cn, rfl⟩⟩

/-- C6: an accepted facet's annotated segment carries exactly the first
entry of the facet's `features` sequence, and no feature at all when the
sequence is empty; later entries never influence the output. -/
theorem claim_C6_first_feature :
    ∀ (text : JSStr) (tbl : Nat) (f : Facet) (rest : List Facet) (cursor : Nat),
      ¬(f.index.byteStart < cursor ∨ tbl < f.index.byteEnd ∨
        f.index.byteEnd ≤ f.index.byteStart) →
      parseLoop text tbl (f :: rest) cursor =
        (if cursor < f.index.byteStart then
          [{ text := sliceByByteOffset text cursor f.index.byteStart, feature := none }]
        else []) ++
        { text := sliceByByteOffset text f.index.byteStart f.index.byteEnd,
          feature := match f.features with
            | [] => none
            | feat :: _ => some feat }
          :: parseLoop text tbl rest f.index.byteEnd := by
  intro text tbl f rest cursor hg
  simp only [parseLoop]
  rw [if_neg hg]
  obtain ⟨idx, feats⟩ := f
  cases feats <;> rfl

/-- Witness for C6: a facet with two features is rendered with only the
first one. -/
theorem claim_C6_first_feature_witness :
    parseLoop helloWorld 11 [⟨⟨0, 5⟩, [.tag "x", .tag "y"]⟩] 0 =
      (if 0 < 0 then [{ text := sliceByByteOffset helloWorld 0 0, feature := none }] else []) ++
      { text := sliceByByteOffset helloWorld 0 5,
        feature := match ([FacetFeature.tag "x", .tag "y"]) with
          | [] => none
          | feat :: _ => some feat }
        :: parseLoop helloWorld 11 [] 5 :=
  claim_C6_first_feature helloWorld 11 ⟨⟨0, 5⟩, [.tag "x", .tag "y"]⟩ [] 0 (by decide)

/-- C7: merging the one-element sequence containing a single well-formed
`StyleConfig` layer returns a value deeply equal to that layer. -/
theorem claim_C7_single_layer (fields : List (String × JsVal))
    (hwf : wfVal (.jsObj fields) = true) :
    generateClassNames [.jsObj fields] none = fields :=
  gc_single_copy (jsSize (.jsObj fields)) fields (Nat.le_refl _) hwf

/-- Witness for C7: a two-key layer with a nested sub-configuration is
reproduced exactly. -/
theorem claim_C7_single_layer_witness :
    wfVal (.jsObj [("root", .jsStr "r"), ("suggestion", .jsObj [("item", .jsStr "i")])])
      = true ∧
    generateClassNames
      [.jsObj [("root", .jsStr "r"), ("suggestion", .jsObj [("item", .jsStr "i")])]] none
      = [("root", .jsStr "r"), ("suggestion", .jsObj [("item", .jsStr "i")])] :=
  ⟨by decide, claim_C7_single_layer _ (by decide)⟩

/-- C8: with no combiner supplied, a key whose collected values are all
strings is joined in layer order with a single space after dropping
empty strings; `[{root:"a"}, {root:"b"}]` gives `{root:"a b"}` and
`[{root:""}, {root:"b"}]` gives `{root:"b"}`. -/
theorem claim_C8_string_join :
    (∀ (vo : List JsVal) (key : String) (ks : List String) (v : JsVal) (vs : List JsVal),
      collectValues vo key = v :: vs → (collectValues vo key).all isStr = true →
      mergeKeys vo none (key :: ks) =
        (key, .jsStr (String.intercalate " "
          (((collectValues vo key).map strOf).filter (fun s => !s.isEmpty))))
          :: mergeKeys vo none ks) ∧
    generateClassNames [.jsObj [("root", .jsStr "a")], .jsObj [("root", .jsStr "b")]] none
      = [("root", .jsStr "a b")] ∧
    generateClassNames [.jsObj [("root", .jsStr "")], .jsObj [("root", .jsStr "b")]] none
      = [("root", .jsStr "b")] := by
  refine ⟨?_, ?_, ?_⟩
  · intro vo key ks v vs h hs
    rw [mergeKeys_cons_str none ks h hs]
    rfl
  · rw [generateClassNames_unfold]
    rw [show (([JsVal.jsObj [("root", .jsStr "a")],
        .jsObj [("root", .jsStr "b")]].filter truthy))
        = [JsVal.jsObj [("root", .jsStr "a")], .jsObj [("root", .jsStr "b")]] from rfl]
    rw [if_neg (by decide)]
    rw [show dedupKeys (([JsVal.jsObj [("root", .jsStr "a")],
        .jsObj [("root", .jsStr "b")]].map keysOf).flatten) = ["root"] from rfl]
    rw [mergeKeys_cons_str none []
      (show collectValues [JsVal.jsObj [("root", .jsStr "a")],
        .jsObj [("root", .jsStr "b")]] "root" = [.jsStr "a", .jsStr "b"] from rfl)
      (by rfl)]
    rw [mergeKeys_nil]
    rfl
  · rw [generateClassNames_unfold]
    rw [show (([JsVal.jsObj [("root", .jsStr "")],
        .jsObj [("root", .jsStr "b")]].filter truthy))
        = [JsVal.jsObj [("root", .jsStr "")], .jsObj [("root", .jsStr "b")]] from rfl]
    rw [if_neg (by decide)]
    rw [show dedupKeys (([JsVal.jsObj [("root", .jsStr "")],
        .jsObj [("root", .jsStr "b")]].map keysOf).flatten) = ["root"] from rfl]
    rw [mergeKeys_cons_str none []
      (show collectValues [JsVal.jsObj [("root", .jsStr "")],
        .jsObj [("root", .jsStr "b")]] "root" = [.jsStr "", .jsStr "b"] from rfl)
      (by rfl)]
    rw [mergeKeys_nil]
    rfl

/-- Witness for C8: the general join rule applied at a concrete layer
list with one string value. -/
theorem claim_C8_string_join_witness :
    mergeKeys [JsVal.jsObj [("root", JsVal.jsStr "a")]] none ["root"] =
      ("root", JsVal.jsStr (String.intercalate " "
        (((collectValues [JsVal.jsObj [("root", JsVal.jsStr "a")]] "root").map strOf).filter
          (fun s => !s.isEmpty))))
        :: mergeKeys [JsVal.jsObj [("root", JsVal.jsStr "a")]] none [] :=
  claim_C8_string_join.1 _ "root" [] (.jsStr "a") [] (by rfl) (by rfl)

/-- C9: `generateClassNames` first discards every falsy layer; when no
layer survives it returns the empty configuration; composing
`[undefined, false, {root:"a"}]` yields `{root:"a"}`, and an empty or
all-falsy layer list yields the empty configuration. -/
theorem claim_C9_falsy_layers :
    (∀ (layers : List JsVal) (cn : Option (List String → String)),
      generateClassNames layers cn = generateClassNames (layers.filter truthy) cn) ∧
    (∀ (layers : List JsVal) (cn : Option (List String → String)),
      layers.filter truthy = [] → generateClassNames layers cn = []) ∧
    generateClassNames [.jsUndefined, .jsBool false, .jsObj [("root", .jsStr "a")]] none
      = [("root", .jsStr "a")] ∧
    generateClassNames [] none = [] ∧
    generateClassNames [.jsUndefined, .jsNull, .jsBool false] none = [] := by
  refine ⟨?_, ?_, ?_, ?_, ?_⟩
  · intro layers cn
    rw [generateClassNames_unfold, generateClassNames_unfold, filter_truthy_idem]
  · intro layers cn h
    rw [generateClassNames_unfold, h]
    rfl
  · rw [generateClassNames_unfold]
    rw [show (([JsVal.jsUndefined, .jsBool false, .jsObj [("root", .jsStr "a")]].filter truthy))
        = [JsVal.jsObj [("root", .jsStr "a")]] from rfl]
    rw [if_neg (by decide)]
    rw [show dedupKeys (([JsVal.jsObj [("root", .jsStr "a")]].map keysOf).flatten)
        = ["root"] from rfl]
    rw [mergeKeys_cons_str none []
      (show collectValues [JsVal.jsObj [("root", .jsStr "a")]] "root"
        = [.jsStr "a"] from rfl)
      (by rfl)]
    rw [mergeKeys_nil]
    rfl
  · rw [generateClassNames_unfold]
    rfl
  · rw [generateClassNames_unfold]
    rfl

/-- Witness for C9: the conditional parts applied at an all-falsy list. -/
theorem claim_C9_falsy_layers_witness :
    generateClassNames [JsVal.jsUndefined] none
      = generateClassNames ([JsVal.jsUndefined].filter truthy) none ∧
    generateClassNames [JsVal.jsUndefined] none = [] :=
  ⟨claim_C9_falsy_layers.1 [JsVal.jsUndefined] none,
   claim_C9_falsy_layers.2.1 [JsVal.jsUndefined] none (by rfl)⟩

/-- C10: a facet passing the bounds check can still produce an
empty-text segment: with the text a single 4-byte emoji and facet
`{byteStart := 1, byteEnd := 2}` (both offsets strictly inside the code
point), the facet is accepted — `0 ≤ 1 < 2 ≤ utf8ByteLength text` — yet
both offsets convert to char index 1, so the emitted annotated segment
has empty text. -/
theorem claim_C10_empty_segment :
    (0 < 1 ∧ 1 < 2 ∧ 2 ≤ utf8ByteLength emojiText) ∧
    utf8ByteOffsetToCharIndex emojiText 1 = utf8ByteOffsetToCharIndex emojiText 2 ∧
    parseRichText ⟨emojiText, some [⟨⟨1, 2⟩, [.tag "x"]⟩]⟩ =
      [{ text := [55356], feature := none },
       { text := [], feature := some (.tag "x") },
       { text := [57225], feature := none }] := by
  decide

end BskyRichText
